import Mathlib

/-!
Verification of the message-rendering and chat-streaming logic of the
repository (a React/TypeScript AI chat application).

Part 1 models `parseMessage` from `src/components/MessageContent.tsx`:

  const codeBlockRegex = /(```[\s\S]*?```)/g;
  const parseMessage = (text) => {
    if (!text) return [];
    const parts = text.split(codeBlockRegex);
    return parts.map((part) => {
      if (codeBlockRegex.test(part)) {
        const codeContent = part.replace(/^```(?:\w+)?\n?/, '').replace(/```$/, '');
        return { type: 'code', content: codeContent };
      } else {
        return { type: 'text', content: part };
      }
    }).filter(part => part.content);
  };

Strings are modelled as `List Char`.  The regex `(```[\s\S]*?```)/g` is
modelled by an explicit leftmost-shortest matcher (`matchAt`), the
capturing `split` by a left-to-right scan (`splitScan`), and the stateful
`codeBlockRegex.test` (a global regex whose `lastIndex` advances on
success and resets to 0 on failure) by `regexTest`, with the `lastIndex`
threaded through the `map` by `classifyParts`.

Part 2 models the streaming accumulator of `handleSend` in
`src/services/geminiService.ts` (AiChat) and
`src/features/Premium/PersonaChat.tsx`, which have identical logic.
-/

/-- The three-backtick fence, the literal delimiter of `codeBlockRegex`. -/
def fence : List Char := "```".toList

/-- Lazy search for the closing fence, as performed by the reluctant
`[\s\S]*?` of `codeBlockRegex`: scan left to right; at the first position
where a fence starts, the body ends.  Returns `(body, rest-after-fence)`. -/
def findClose : List Char → Option (List Char × List Char)
  | [] => none
  | c :: rest =>
    if (c :: rest).take 3 = fence then some ([], rest.drop 2)
    else
      match findClose rest with
      | some (b, a) => some (c :: b, a)
      | none => none

/-- Attempt to match `codeBlockRegex` (i.e. three backticks, a lazy body,
three backticks) at the very start of `cs`.  Returns the full matched
substring and the remainder of the input after it. -/
def matchAt (cs : List Char) : Option (List Char × List Char) :=
  if cs.take 3 = fence then
    match findClose (cs.drop 3) with
    | some (b, a) => some (fence ++ b ++ fence, a)
    | none => none
  else none

theorem findClose_eq : ∀ (cs : List Char) {b a},
    findClose cs = some (b, a) → cs = b ++ fence ++ a := by
  intro cs
  induction cs with
  | nil => intro b a h; simp [findClose] at h
  | cons c rest ih =>
    intro b a h
    rw [findClose] at h
    split at h
    · rename_i hf
      rw [Option.some.injEq, Prod.mk.injEq] at h
      obtain ⟨hb, ha⟩ := h
      subst hb; subst ha
      have := List.take_append_drop 3 (c :: rest)
      rw [hf] at this
      simpa using this.symm
    · rename_i hf
      split at h
      · rename_i b' a' hrec
        rw [Option.some.injEq, Prod.mk.injEq] at h
        obtain ⟨hb, ha⟩ := h
        subst hb; subst ha
        have := ih hrec
        simp [this]
      · exact absurd h (by simp)

theorem matchAt_eq : ∀ {cs m a : List Char},
    matchAt cs = some (m, a) → cs = m ++ a ∧ ∃ b, m = fence ++ b ++ fence := by
  intro cs m a h
  rw [matchAt] at h
  split at h
  · rename_i hf
    split at h
    · rename_i b a' hrec
      rw [Option.some.injEq, Prod.mk.injEq] at h
      obtain ⟨hm, ha⟩ := h
      subst hm; subst ha
      have hd := findClose_eq _ hrec
      have := List.take_append_drop 3 cs
      rw [hf, hd] at this
      exact ⟨by simpa using this.symm, b, rfl⟩
    · exact absurd h (by simp)
  · exact absurd h (by simp)

theorem matchAt_lt {cs m a : List Char} (h : matchAt cs = some (m, a)) :
    a.length < cs.length := by
  obtain ⟨hcs, b, hm⟩ := matchAt_eq h
  subst hcs
  have : 0 < m.length := by
    subst hm
    simp [fence]
  simpa using this

theorem matchAt_nil : matchAt ([] : List Char) = none := by
  rw [matchAt]
  simp [fence]

/-- The scan of `text.split(codeBlockRegex)`, with explicit fuel to make
the recursion structural (each step consumes at least one character, so
any fuel exceeding the input length is never exhausted; the fuel-out
branch is unreachable under that bound). -/
def splitScanAux : Nat → List Char → List Char → List (List Char)
  | _, acc, [] => [acc.reverse]
  | 0, acc, cs => [acc.reverse ++ cs]
  | fuel + 1, acc, c :: rest =>
    match matchAt (c :: rest) with
    | some (m, after) => acc.reverse :: m :: splitScanAux fuel [] after
    | none => splitScanAux fuel (c :: acc) rest

/-- Model of `text.split(codeBlockRegex)` with the capturing group:
scan left to right; whenever the regex matches, emit the accumulated
text chunk, emit the captured match, and continue after it; at the end
emit the trailing text chunk.  The result alternates
text, match, text, match, ..., text (outer chunks possibly empty). -/
def splitScan (acc cs : List Char) : List (List Char) :=
  splitScanAux (cs.length + 1) acc cs

/-- Earliest match end: scan for the first position at which `matchAt`
succeeds; `pos` is the absolute index of the head of the list being
scanned.  Returns the absolute end index of the match, as a global-regex
`exec`/`test` records it into `lastIndex`. -/
def findMatchEnd (pos : Nat) : List Char → Option Nat
  | [] => none
  | c :: rest =>
    match matchAt (c :: rest) with
    | some (m, _) => some (pos + m.length)
    | none => findMatchEnd (pos + 1) rest

/-- Model of `codeBlockRegex.test(part)` for the global regex: matching
starts at `lastIndex` `li`; on success `lastIndex` becomes the end index
of the match, on failure (including `li` past the end) it resets to 0.
Returns `(result, new lastIndex)`. -/
def regexTest (li : Nat) (cs : List Char) : Bool × Nat :=
  if li ≤ cs.length then
    match findMatchEnd li (cs.drop li) with
    | some e => (true, e)
    | none => (false, 0)
  else (false, 0)

/-- JavaScript `\w`: ASCII letters, digits and underscore. -/
def isWordChar (c : Char) : Bool := c.isAlphanum || c = '_'

/-- Model of `part.replace(/^```(?:\w+)?\n?/, '')`: if the string starts
with a fence, remove it together with a maximal run of word characters
(the language tag) and one following newline if present. -/
def stripLeading (cs : List Char) : List Char :=
  if cs.take 3 = fence then
    let rest := (cs.drop 3).dropWhile isWordChar
    if rest.take 1 = ['\n'] then rest.drop 1 else rest
  else cs

/-- Model of `.replace(/```$/, '')`: remove a trailing fence if present. -/
def stripTrailing (cs : List Char) : List Char :=
  if cs.reverse.take 3 = fence then (cs.reverse.drop 3).reverse else cs

/-- The full fence/language-tag strip applied to a part classified as code. -/
def stripCode (cs : List Char) : List Char := stripTrailing (stripLeading cs)

inductive SegType where
  | text : SegType
  | code : SegType
deriving DecidableEq, Repr

/-- One element of `parseMessage`'s result: `{ type, content }`. -/
structure Segment where
  type : SegType
  content : List Char
deriving DecidableEq, Repr

/-- The `parts.map(...)` step: classify each part with the stateful
`codeBlockRegex.test`, threading the regex's `lastIndex` through the
calls in order.  Code parts are stripped, text parts kept verbatim.
Returns the segments and the final `lastIndex`. -/
def classifyParts (li : Nat) : List (List Char) → List Segment × Nat
  | [] => ([], li)
  | p :: rest =>
    let t := regexTest li p
    let seg := if t.1 then Segment.mk SegType.code (stripCode p)
               else Segment.mk SegType.text p
    let r := classifyParts t.2 rest
    (seg :: r.1, r.2)

/-- Model of `parseMessage`, with the global regex's `lastIndex` made an
explicit input/output (`li` is its value when the call starts).  Empty
input returns `[]` before touching the regex; otherwise split, classify
with the stateful test, and drop segments with empty (falsy) content. -/
def parseMessage (li : Nat) (text : List Char) : List Segment × Nat :=
  if text.isEmpty then ([], li)
  else
    let r := classifyParts li (splitScan [] text)
    (r.1.filter (fun s => !s.content.isEmpty), r.2)

/-- `parseMessage` called on a `String` with the regex in its initial
state (`lastIndex = 0`), returning just the segment list. -/
def parseMsg (s : String) : List Segment := (parseMessage 0 s.toList).1

/-- Instrumented segment that additionally records the original,
unstripped part of the input it came from. -/
structure SegmentO where
  type : SegType
  content : List Char
  orig : List Char
deriving DecidableEq, Repr

/-- `classifyParts`, instrumented to record each segment's original
unstripped part. -/
def classifyPartsO (li : Nat) : List (List Char) → List SegmentO × Nat
  | [] => ([], li)
  | p :: rest =>
    let t := regexTest li p
    let seg := if t.1 then SegmentO.mk SegType.code (stripCode p) p
               else SegmentO.mk SegType.text p p
    let r := classifyPartsO t.2 rest
    (seg :: r.1, r.2)

/-- `parseMessage`, instrumented to record each returned segment's
original unstripped part (the filter is unchanged: it still inspects the
stripped content). -/
def parseMessageO (li : Nat) (text : List Char) : List SegmentO × Nat :=
  if text.isEmpty then ([], li)
  else
    let r := classifyPartsO li (splitScan [] text)
    (r.1.filter (fun s => !s.content.isEmpty), r.2)

/-- Concatenation of a list of character lists. -/
def joinAll : List (List Char) → List Char
  | [] => []
  | a :: rest => a ++ joinAll rest

/-- No position of `cs` carries a match of `codeBlockRegex`. -/
def noMatchIn (cs : List Char) : Prop := ∀ n, matchAt (cs.drop n) = none

/-- The shape invariant of `splitScan`'s output: text chunks (with no
match anywhere inside) alternate with exact matches, starting and ending
with a text chunk. -/
inductive PartsOK : List (List Char) → Prop where
  | last (t : List Char) : noMatchIn t → PartsOK [t]
  | cons (t m : List Char) (rest : List (List Char)) :
      noMatchIn t → matchAt m = some (m, []) → PartsOK rest →
      PartsOK (t :: m :: rest)

/-- Decidable check that the input contains a substring matched by
`codeBlockRegex` (an opening fence with a closing fence after it). -/
def hasCodeFence (cs : List Char) : Bool := (findMatchEnd 0 cs).isSome

/-- Message roles as used by the chat components. -/
inductive Role where
  | user : Role
  | model : Role
deriving DecidableEq, Repr

/-- A chat message (`{ role, text }`), text modelled as `List Char`. -/
structure Message where
  role : Role
  text : List Char
deriving DecidableEq, Repr

/-- Apply `f` to the last element of the list, as
`newMessages[newMessages.length - 1] = f(...)` does on a non-empty
array. -/
def updateLast (f : Message → Message) : List Message → List Message
  | [] => []
  | [m] => [f m]
  | m :: m2 :: rest => m :: updateLast f (m2 :: rest)

/-- One fragment arrival in `handleSend`'s `for await` loop:
`newMessages[newMessages.length - 1].text += chunkText`. -/
def applyChunk (chunk : List Char) (msgs : List Message) : List Message :=
  updateLast (fun m => { m with text := m.text ++ chunk }) msgs

/-- The whole error-free streaming loop: apply the fragments in arrival
order. -/
def runStream (msgs : List Message) : List (List Char) → List Message
  | [] => msgs
  | c :: rest => runStream (applyChunk c msgs) rest

/-- The fallback error string of the `catch` blocks. -/
def defaultErrorText : List Char :=
  "Sorry, I encountered an error. Please try again later.".toList

/-- `error instanceof Error ? error.message : 'Sorry, ...'`: the
user-facing error text; `some m` models an `Error` with message `m`,
`none` a non-`Error` thrown value. -/
def errorText : Option (List Char) → List Char
  | some m => m
  | none => defaultErrorText

/-- The `catch` block of `handleSend`:
`newMessages[newMessages.length - 1].text = errorMessage` — the
in-flight message's text is overwritten, not appended to. -/
def applyError (e : Option (List Char)) (msgs : List Message) : List Message :=
  updateLast (fun m => { m with text := errorText e }) msgs

/-- The state right after `setMessages(prev => [...prev, userMessage,
{ role: 'model', text: '' }])`: the previous messages, the user's
message, and a fresh empty in-flight model message. -/
def startMessages (prev : List Message) (userText : List Char) : List Message :=
  prev ++ [Message.mk Role.user userText, Message.mk Role.model []]

/-! ### Structural lemmas about the matcher and the split -/

/-- `findMatchEnd` fails exactly when no position carries a match. -/
theorem findMatchEnd_eq_none : ∀ (zs : List Char) (p : Nat),
    findMatchEnd p zs = none ↔ ∀ n, matchAt (zs.drop n) = none := by
  intro zs
  induction zs with
  | nil =>
    intro p
    simp [findMatchEnd, matchAt_nil]
  | cons c rest ih =>
    intro p
    rw [findMatchEnd]
    constructor
    · intro h n
      match hm : matchAt (c :: rest) with
      | some v => rw [hm] at h; exact absurd h (by simp)
      | none =>
        rw [hm] at h
        match n with
        | 0 => simpa using hm
        | n + 1 => exact ((ih (p + 1)).1 h) n
    · intro h
      have h0 := h 0
      simp only [List.drop_zero] at h0
      rw [h0]
      exact (ih (p + 1)).2 (fun n => h (n + 1))

/-- A list whose `take 3` is the fence has at least three elements. -/
theorem take3_fence_length {cs : List Char} (h : cs.take 3 = fence) :
    3 ≤ cs.length := by
  have := congrArg List.length h
  rw [List.length_take] at this
  simp [fence] at this
  omega

/-- `findClose` is stable under extending the input on the right: the
same body is found, with the extension appended to the leftover. -/
theorem findClose_mono : ∀ (zs : List Char) {b a} (ys : List Char),
    findClose zs = some (b, a) → findClose (zs ++ ys) = some (b, a ++ ys) := by
  intro zs
  induction zs with
  | nil => intro b a ys h; simp [findClose] at h
  | cons c rest ih =>
    intro b a ys h
    rw [findClose] at h
    split at h
    · rename_i hf
      rw [Option.some.injEq, Prod.mk.injEq] at h
      obtain ⟨hb, ha⟩ := h
      subst hb; subst ha
      have hlen : 3 ≤ (c :: rest).length := take3_fence_length hf
      have hlen2 : 2 ≤ rest.length := by simpa using hlen
      have htake : ((c :: rest) ++ ys).take 3 = fence := by
        rw [List.take_append_of_le_length hlen, hf]
      rw [List.cons_append] at htake
      rw [List.cons_append, findClose, if_pos htake]
      rw [List.drop_append_of_le_length hlen2]
    · rename_i hf
      split at h
      · rename_i b' a' hrec
        rw [Option.some.injEq, Prod.mk.injEq] at h
        obtain ⟨hb, ha⟩ := h
        subst hb; subst ha
        have hrest : rest = b' ++ fence ++ a' := findClose_eq _ hrec
        have hlen : 3 ≤ (c :: rest).length := by
          subst hrest; simp [fence]; omega
        have htake : ((c :: rest) ++ ys).take 3 = (c :: rest).take 3 :=
          List.take_append_of_le_length hlen
        rw [List.cons_append] at htake
        rw [List.cons_append, findClose, htake, if_neg hf]
        rw [ih ys hrec]
      · exact absurd h (by simp)

/-- `matchAt` is stable under extending the input on the right. -/
theorem matchAt_mono : ∀ {xs m a : List Char} (ys : List Char),
    matchAt xs = some (m, a) → matchAt (xs ++ ys) = some (m, a ++ ys) := by
  intro xs m a ys h
  rw [matchAt] at h
  split at h
  · rename_i hf
    split at h
    · rename_i b a' hrec
      rw [Option.some.injEq, Prod.mk.injEq] at h
      obtain ⟨hm, ha⟩ := h
      subst hm; subst ha
      have hlen : 3 ≤ xs.length := take3_fence_length hf
      rw [matchAt]
      rw [List.take_append_of_le_length hlen, hf, if_pos rfl]
      rw [List.drop_append_of_le_length hlen]
      rw [findClose_mono _ ys hrec]
    · exact absurd h (by simp)
  · exact absurd h (by simp)

/-- If the extended list has no match at its head, neither has the
restriction. -/
theorem matchAt_append_none {xs ys : List Char}
    (h : matchAt (xs ++ ys) = none) : matchAt xs = none := by
  match hm : matchAt xs with
  | none => rfl
  | some (m, a) => rw [matchAt_mono ys hm] at h; exact absurd h (by simp)

/-- A body found by `findClose` is an exact body: on `body ++ fence`
alone, `findClose` finds exactly that body with nothing left over. -/
theorem findClose_self : ∀ (zs : List Char) {b a},
    findClose zs = some (b, a) → findClose (b ++ fence) = some (b, []) := by
  intro zs
  induction zs with
  | nil => intro b a h; simp [findClose] at h
  | cons c rest ih =>
    intro b a h
    rw [findClose] at h
    split at h
    · rename_i hf
      rw [Option.some.injEq, Prod.mk.injEq] at h
      obtain ⟨hb, ha⟩ := h
      subst hb
      decide
    · rename_i hf
      split at h
      · rename_i b' a' hrec
        rw [Option.some.injEq, Prod.mk.injEq] at h
        obtain ⟨hb, ha⟩ := h
        subst hb; subst ha
        have hrest : rest = b' ++ fence ++ a' := findClose_eq _ hrec
        have hx : (c :: (b' ++ fence)).take 3 = (c :: rest).take 3 := by
          have h3 : 3 ≤ (c :: (b' ++ fence)).length := by simp [fence]
          have : (c :: (b' ++ fence)) ++ a' = c :: rest := by
            simp [hrest]
          rw [← this, List.take_append_of_le_length h3]
        rw [List.cons_append, findClose, hx, if_neg hf, ih hrec]
      · exact absurd h (by simp)

/-- A substring matched by `codeBlockRegex` matches the regex exactly
when tested in isolation: the match covers the whole substring. -/
theorem matchAt_self : ∀ {cs m a : List Char},
    matchAt cs = some (m, a) → matchAt m = some (m, []) := by
  intro cs m a h
  rw [matchAt] at h
  split at h
  · rename_i hf
    split at h
    · rename_i b a' hrec
      rw [Option.some.injEq, Prod.mk.injEq] at h
      obtain ⟨hm, ha⟩ := h
      subst hm; subst ha
      have hfl : fence.length = 3 := by decide
      have htake : (fence ++ b ++ fence).take 3 = fence := by
        rw [List.append_assoc, List.take_append_of_le_length (by omega)]
        decide
      have hdrop : (fence ++ b ++ fence).drop 3 = b ++ fence := by
        rw [List.append_assoc, List.drop_append_of_le_length (by omega)]
        simp [fence]
      rw [matchAt, htake, if_pos rfl, hdrop, findClose_self _ hrec]
    · exact absurd h (by simp)
  · exact absurd h (by simp)

theorem splitScanAux_join : ∀ (fuel : Nat) (acc cs : List Char),
    joinAll (splitScanAux fuel acc cs) = acc.reverse ++ cs := by
  intro fuel
  induction fuel with
  | zero =>
    intro acc cs
    cases cs with
    | nil => simp [splitScanAux, joinAll]
    | cons c rest => simp [splitScanAux, joinAll]
  | succ fuel ih =>
    intro acc cs
    cases cs with
    | nil => simp [splitScanAux, joinAll]
    | cons c rest =>
      rw [splitScanAux]
      match hm : matchAt (c :: rest) with
      | some (m, after) =>
        have hcs : c :: rest = m ++ after := (matchAt_eq hm).1
        simp only [joinAll, ih]
        simp [hcs]
      | none =>
        simp only [ih]
        simp

/-- The split is a partition: concatenating the parts restores the
input (with the pending accumulator in front). -/
theorem splitScan_join : ∀ (acc cs : List Char),
    joinAll (splitScan acc cs) = acc.reverse ++ cs := by
  intro acc cs
  exact splitScanAux_join _ acc cs

/-- On a string with no match anywhere, `codeBlockRegex.test` fails and
resets `lastIndex` to 0, whatever `lastIndex` was before. -/
theorem regexTest_noMatch {cs : List Char} (h : noMatchIn cs) (li : Nat) :
    regexTest li cs = (false, 0) := by
  rw [regexTest]
  split
  · have : findMatchEnd li (cs.drop li) = none := by
      rw [findMatchEnd_eq_none]
      intro n
      rw [List.drop_drop]
      exact h (li + n)
    rw [this]
  · rfl

/-- On an exact match tested from `lastIndex = 0`,
`codeBlockRegex.test` succeeds and sets `lastIndex` to the string's
length. -/
theorem regexTest_exact {m : List Char} (h : matchAt m = some (m, [])) :
    regexTest 0 m = (true, m.length) := by
  have hne : m ≠ [] := by
    intro hm
    rw [hm, matchAt_nil] at h
    exact absurd h (by simp)
  rw [regexTest, if_pos (Nat.zero_le _), List.drop_zero]
  match m, hne with
  | c :: rest, _ =>
    rw [findMatchEnd, h]
    simp

/-- The scan invariant implies its accumulated chunk has no match. -/
theorem acc_noMatchIn {acc cs : List Char}
    (hinv : ∀ n, n < acc.length → matchAt (acc.reverse.drop n ++ cs) = none) :
    noMatchIn acc.reverse := by
  intro n
  rcases Nat.lt_or_ge n acc.length with hn | hn
  · exact matchAt_append_none (hinv n (by simpa using hn))
  · have : acc.reverse.drop n = [] := by
      apply List.drop_eq_nil_of_le
      simpa using hn
    rw [this, matchAt_nil]

theorem splitScanAux_partsOK : ∀ (fuel : Nat) (acc cs : List Char),
    cs.length < fuel →
    (∀ n, n < acc.length → matchAt (acc.reverse.drop n ++ cs) = none) →
    PartsOK (splitScanAux fuel acc cs) := by
  intro fuel
  induction fuel with
  | zero => intro acc cs hlt; omega
  | succ fuel ih =>
    intro acc cs hlt hinv
    cases cs with
    | nil =>
      rw [splitScanAux]
      exact PartsOK.last _ (by simpa using acc_noMatchIn hinv)
    | cons c rest =>
      rw [splitScanAux]
      match hm : matchAt (c :: rest) with
      | some (m, after) =>
        have hfuel : after.length < fuel := by
          have := matchAt_lt hm
          simp at this hlt
          omega
        exact PartsOK.cons _ _ _ (acc_noMatchIn hinv) (matchAt_self hm)
          (ih [] after hfuel (by intro n hn; exact absurd hn (by simp)))
      | none =>
        apply ih (c :: acc) rest (by simp at hlt; omega)
        intro n hn
        rcases Nat.lt_or_ge n acc.length with h1 | h1
        · have := hinv n (by simpa using h1)
          have hd : (c :: acc).reverse.drop n = acc.reverse.drop n ++ [c] := by
            rw [List.reverse_cons]
            exact List.drop_append_of_le_length (by simpa using Nat.le_of_lt h1)
          rw [hd, List.append_assoc]
          simpa using this
        · have h2 : n = acc.length := by
            simp at hn
            omega
          have hd : (c :: acc).reverse.drop n = [c] := by
            rw [List.reverse_cons, h2]
            rw [List.drop_append_of_le_length (by simp)]
            simp
          rw [hd]
          simpa using hm

/-- `splitScan` establishes the alternating-parts invariant. -/
theorem splitScan_partsOK : ∀ (acc cs : List Char),
    (∀ n, n < acc.length → matchAt (acc.reverse.drop n ++ cs) = none) →
    PartsOK (splitScan acc cs) := by
  intro acc cs hinv
  exact splitScanAux_partsOK _ acc cs (Nat.lt_succ_self _) hinv

/-- On an alternating parts list, the classification is independent of
the regex's incoming `lastIndex`: every text part fails the test (there
is nothing to match in it), resetting `lastIndex` to 0 just before each
code part is tested. -/
theorem classifyParts_indep : ∀ {parts : List (List Char)}, PartsOK parts →
    ∀ li li', classifyParts li parts = classifyParts li' parts := by
  intro parts hOK
  induction hOK with
  | last t ht =>
    intro li li'
    simp [classifyParts, regexTest_noMatch ht]
  | cons t m rest ht hm hrest ih =>
    intro li li'
    simp [classifyParts, regexTest_noMatch ht, regexTest_exact hm]

theorem splitScanAux_noMatch : ∀ (fuel : Nat) {cs : List Char}, noMatchIn cs →
    cs.length < fuel → ∀ acc, splitScanAux fuel acc cs = [acc.reverse ++ cs] := by
  intro fuel
  induction fuel with
  | zero => intro cs h hlt; omega
  | succ fuel ih =>
    intro cs h hlt acc
    cases cs with
    | nil => simp [splitScanAux]
    | cons c rest =>
      rw [splitScanAux]
      rw [show matchAt (c :: rest) = none from by simpa using h 0]
      rw [ih (fun n => by simpa using h (n + 1)) (by simp at hlt; omega) (c :: acc)]
      simp

/-- With no match anywhere, the split returns the whole input as a
single part. -/
theorem splitScan_noMatch : ∀ {cs : List Char}, noMatchIn cs →
    ∀ acc, splitScan acc cs = [acc.reverse ++ cs] := by
  intro cs h acc
  exact splitScanAux_noMatch _ h (Nat.lt_succ_self _) acc

/-- The instrumented classifier records exactly the parts as originals. -/
theorem classifyPartsO_orig : ∀ (parts : List (List Char)) (li : Nat),
    (classifyPartsO li parts).1.map SegmentO.orig = parts := by
  intro parts
  induction parts with
  | nil => intro li; rfl
  | cons p rest ih =>
    intro li
    rw [classifyPartsO]
    by_cases hb : (regexTest li p).1
    · simp [hb, ih]
    · simp [hb, ih]

/-- Erasing the instrumentation recovers the plain classifier. -/
theorem classifyPartsO_erase : ∀ (parts : List (List Char)) (li : Nat),
    ((classifyPartsO li parts).1.map (fun o => Segment.mk o.type o.content),
      (classifyPartsO li parts).2) = classifyParts li parts := by
  intro parts
  induction parts with
  | nil => intro li; rfl
  | cons p rest ih =>
    intro li
    rw [classifyPartsO, classifyParts]
    have := ih (regexTest li p).2
    by_cases hb : (regexTest li p).1
    · simp only [hb, if_true]
      rw [Prod.mk.injEq] at this ⊢
      simp [this.1, this.2]
    · simp only [hb, if_false]
      rw [Prod.mk.injEq] at this ⊢
      simp [this.1, this.2]

/-! ### Lemmas about the stream accumulator -/

/-- `updateLast` leaves the length unchanged, so the list stays
non-empty. -/
theorem updateLast_ne_nil (f : Message → Message) :
    ∀ {l : List Message}, l ≠ [] → updateLast f l ≠ [] := by
  intro l h
  match l with
  | [m] => simp [updateLast]
  | m :: m2 :: rest => simp [updateLast]

/-- `updateLast` acts on the last element and nothing else, so the last
element of the result is `f` of the old last element. -/
theorem updateLast_getLast? (f : Message → Message) :
    ∀ l : List Message, (updateLast f l).getLast? = l.getLast?.map f := by
  intro l
  induction l with
  | nil => rfl
  | cons m rest ih =>
    match rest with
    | [] => rfl
    | m2 :: rs =>
      rw [updateLast]
      have hne : updateLast f (m2 :: rs) ≠ [] := updateLast_ne_nil f (by simp)
      match hu : updateLast f (m2 :: rs) with
      | [] => exact absurd hu hne
      | u :: us =>
        rw [List.getLast?_cons_cons, List.getLast?_cons_cons, ← hu, ih]

/-- Running the stream appends the concatenation of all fragments to the
last message's text. -/
theorem runStream_getLast? : ∀ (frags : List (List Char)) (msgs : List Message),
    (runStream msgs frags).getLast?
      = msgs.getLast?.map (fun m => { m with text := m.text ++ joinAll frags }) := by
  intro frags
  induction frags with
  | nil =>
    intro msgs
    rw [runStream]
    cases msgs.getLast? <;> simp [joinAll]
  | cons c rest ih =>
    intro msgs
    rw [runStream, ih, applyChunk, updateLast_getLast?]
    cases msgs.getLast? <;> simp [joinAll]

/-- The freshly started message list ends with the empty in-flight
model message. -/
theorem startMessages_getLast? (prev : List Message) (u : List Char) :
    (startMessages prev u).getLast? = some (Message.mk Role.model []) := by
  rw [startMessages]
  rw [show [Message.mk Role.user u, Message.mk Role.model []]
      = [Message.mk Role.user u] ++ [Message.mk Role.model []] from rfl]
  rw [← List.append_assoc]
  exact List.getLast?_concat _

/-! ### Claim theorems -/

/-- Claim C1 counterexample: contrary to the claim, an unterminated
opening fence does not start a code segment running to end of input;
`parseMessage "text ```orphan code"` is not a prose segment `"text "`
followed by a code segment `"orphan code"`. -/
theorem c1_counterexample :
    parseMsg "text ```orphan code"
      ≠ [Segment.mk SegType.text "text ".toList,
         Segment.mk SegType.code "orphan code".toList] := by decide

/-- Claim C1 (amended): with no closing fence before end of input the
regex never matches, so the whole input — orphan fence included — is
returned as a single prose segment: `parseMessage "text ```orphan code"`
yields exactly the prose segment `"text ```orphan code"`. -/
theorem c1_unterminated_fence_is_prose :
    parseMsg "text ```orphan code"
      = [Segment.mk SegType.text "text ```orphan code".toList] := by decide

/-- Claim C7: `parseMessage "before ```\ncode\n``` after"` returns
exactly three segments in order: prose `"before "`, code `"code\n"`
(fences and the newline after the opening fence stripped), and prose
`" after"` — the unfenced text emitted verbatim. -/
theorem c7_three_segments :
    parseMsg "before ```\ncode\n``` after"
      = [Segment.mk SegType.text "before ".toList,
         Segment.mk SegType.code "code\n".toList,
         Segment.mk SegType.text " after".toList] := by decide

/-- Claim C8: for a fenced block whose whole body is one run of word
characters with no newline, the leading-strip consumes the body as a
language tag, the code content comes out empty and is dropped by the
filter, so `parseMessage "x```abc```y"` is just the two prose segments
`"x"` and `"y"` and the fenced text `"abc"` is lost. -/
theorem c8_word_body_lost :
    parseMsg "x```abc```y"
      = [Segment.mk SegType.text "x".toList, Segment.mk SegType.text "y".toList]
    ∧ stripCode "```abc```".toList = [] := by decide

/-- Claim C9: `parseMessage` never fails: it is a total function — for
every regex state and every input string, including malformed or
unbalanced fence markup, it returns a segment list (and a final regex
state).  Totality rests on the termination of the split scan, each step
of which consumes at least one character. -/
theorem c9_parseMessage_total :
    ∀ (li : Nat) (s : List Char), ∃ r : List Segment × Nat, parseMessage li s = r :=
  fun li s => ⟨parseMessage li s, rfl⟩

/-- Claim C2 counterexample: reconciling the returned segments with
their original unstripped substrings does not always reconstruct the
input: in `"x``````y"` the code part `"``````"` strips to empty content,
is dropped by the filter, and its original substring is lost — the
originals of the returned segments concatenate to `"xy"`. -/
theorem c2_counterexample :
    joinAll ((parseMessageO 0 "x``````y".toList).1.map SegmentO.orig)
      ≠ "x``````y".toList := by decide

/-- Claim C2 (amended): before the empty-content filter, concatenating
the original unstripped substrings of all split parts, in order,
reconstructs the input exactly (for every input and every starting regex
state); the invariant fails only for segments the filter drops. -/
theorem c2_prefilter_reconstruction :
    ∀ (li : Nat) (s : List Char),
      joinAll ((classifyPartsO li (splitScan [] s)).1.map SegmentO.orig) = s := by
  intro li s
  rw [classifyPartsO_orig]
  simpa using splitScan_join [] s

/-- Claim C3 counterexample: a prose segment can be pure whitespace,
which is empty after trimming even though the input is non-empty:
`parseMessage " "` returns the prose segment `" "`, all of whose
characters are whitespace. -/
theorem c3_counterexample :
    parseMsg " " = [Segment.mk SegType.text [' ']]
    ∧ [' '].dropWhile Char.isWhitespace = [] := by decide

/-- Claim C3 (amended): every segment `parseMessage` returns — prose
segments included — has non-empty content (the filter discards falsy
contents), and the empty input yields the empty segment list; but a
prose segment may be whitespace-only, hence empty after trimming. -/
theorem c3_segments_nonempty :
    ∀ (li : Nat) (s : List Char) (seg : Segment),
      (s = [] → (parseMessage li s).1 = []) ∧
      (seg ∈ (parseMessage li s).1 → seg.content ≠ []) := by
  intro li s seg
  constructor
  · intro hs
    subst hs
    simp [parseMessage]
  · intro hmem
    rw [parseMessage] at hmem
    split at hmem
    · simp at hmem
    · simp only [List.mem_filter] at hmem
      simpa using hmem.2

/-- Claim C3 witness: the amended theorem applied to the whitespace
input `" "`. -/
theorem c3_witness :
    (Segment.mk SegType.text [' ']).content ≠ [] :=
  (c3_segments_nonempty 0 [' '] (Segment.mk SegType.text [' '])).2 (by decide)

/-- Claim C10: the empty input yields the empty segment list, and a
non-empty input containing no complete fence pair (the regex matches
nowhere) is returned as exactly one verbatim prose segment — whatever
the starting regex state. -/
theorem c10_empty_and_plain :
    (∀ li : Nat, (parseMessage li []).1 = [])
    ∧ (∀ (li : Nat) (s : List Char), s ≠ [] → hasCodeFence s = false →
        (parseMessage li s).1 = [Segment.mk SegType.text s])
    ∧ parseMsg "plain text" = [Segment.mk SegType.text "plain text".toList] := by
  refine ⟨fun li => by simp [parseMessage], ?_, by decide⟩
  intro li s hne hnf
  have hnm : noMatchIn s := by
    have : findMatchEnd 0 s = none := by
      rw [hasCodeFence] at hnf
      exact Option.not_isSome_iff_eq_none.1 (by simp [hnf])
    exact (findMatchEnd_eq_none s 0).1 this
  rw [parseMessage]
  rw [if_neg (by simpa using hne)]
  rw [splitScan_noMatch hnm []]
  simp only [List.reverse_nil, List.nil_append]
  rw [classifyParts]
  simp [regexTest_noMatch hnm, classifyParts, hne]

/-- Claim C10 witness: the fence-free case applied to `"plain text"`. -/
theorem c10_witness :
    (parseMessage 0 "plain text".toList).1
      = [Segment.mk SegType.text "plain text".toList] :=
  c10_empty_and_plain.2.1 0 "plain text".toList (by decide) (by decide)

/-- Claim C6: `parseMessage` is observably pure and deterministic
despite the module-level global regex: its segment list does not depend
on the regex's `lastIndex` left behind by earlier calls on any inputs,
so two invocations on the same input always return identical segment
lists, and no call can disturb a later call's output.  (Each split part
preceding a code part is a text chunk the regex cannot match, so the
failing test resets `lastIndex` to 0 before every code part is tested.) -/
theorem c6_parseMessage_state_independent :
    ∀ (li li' : Nat) (s : List Char),
      (parseMessage li s).1 = (parseMessage li' s).1 := by
  intro li li' s
  cases hs : s.isEmpty with
  | true => simp [parseMessage, hs]
  | false =>
    have hOK : PartsOK (splitScan [] s) :=
      splitScan_partsOK [] s (by intro n hn; simp at hn)
    simp only [parseMessage, hs, Bool.false_eq_true, if_false]
    rw [classifyParts_indep hOK li li']

/-- Claim C5: streaming without error appends each fragment verbatim in
arrival order to the fresh in-flight assistant message, so the final
text is the concatenation of the fragments in emission order; in
particular `["Hel", "lo, ", "world"]` yields `"Hello, world"`.  This is
the shared accumulator of `handleSend` in AiChat
(`src/services/geminiService.ts`) and PersonaChat. -/
theorem c5_stream_accumulates :
    (∀ (prev : List Message) (u : List Char) (frags : List (List Char)),
      (runStream (startMessages prev u) frags).getLast?
        = some (Message.mk Role.model (joinAll frags)))
    ∧ (runStream (startMessages [] "hi".toList)
        ["Hel".toList, "lo, ".toList, "world".toList]).getLast?
        = some (Message.mk Role.model "Hello, world".toList) := by
  constructor
  · intro prev u frags
    rw [runStream_getLast?, startMessages_getLast?]
    simp
  · decide

/-- Claim C4: if the stream fails after some fragments were applied, the
catch block overwrites the in-flight message's text with the error
description alone: whatever partial text had accumulated is discarded,
never prepended; e.g. after fragments `["Par", "tial"]` and an error
`"boom"`, the final text is `"boom"`, not `"Partialboom"`. -/
theorem c4_stream_error_replaces :
    (∀ (prev : List Message) (u : List Char) (frags : List (List Char))
        (e : Option (List Char)),
      (applyError e (runStream (startMessages prev u) frags)).getLast?
        = some (Message.mk Role.model (errorText e)))
    ∧ (applyError (some "boom".toList)
        (runStream (startMessages [] "hi".toList) ["Par".toList, "tial".toList])).getLast?
        = some (Message.mk Role.model "boom".toList)
    ∧ "boom".toList ≠ "Partial".toList ++ "boom".toList := by
  refine ⟨?_, by decide, by decide⟩
  intro prev u frags e
  rw [applyError, updateLast_getLast?, runStream_getLast?, startMessages_getLast?]
  simp
